import Mathlib

/-!
# Verification of the roget wordle core

A shallow embedding of the two logic-bearing components of the repository:

* `Correctness.compute` (src/lib.rs, lines 58-98): the two-pass scorer that
  produces a five-slot feedback mask for an (answer, guess) pair.  Strings are
  modelled as `List Char`; the two `assert_eq!(len, 5)` preconditions are
  modelled by returning `Option`: `none` stands for the Rust panic.
* `Wordle::play` (src/lib.rs, lines 23-45): the simulation loop.  The Rust
  guesser trait object (`&mut self` plus the history slice) is modelled as a
  state machine `f : σ → List Guess → List Char × σ`.  The `assert!` on
  dictionary membership and the panic inside `compute` are modelled by a
  dedicated `PlayResult.panicked` outcome carrying the turn of the abort.
* `Wordle::new` (src/lib.rs, lines 13-21) and `Naive::new`
  (src/algorithms/naive.rs): dictionary-source loading, with `expect` panics
  modelled as `none`.
-/

/-- Letter feedback, `Correctness` in src/lib.rs: `Correct` (green),
`Misplaced` (yellow), `Wrong` (gray; the spec calls this state Absent). -/
inductive Correctness where
  | Correct
  | Misplaced
  | Wrong
deriving DecidableEq, Repr

namespace Correctness

/-- Pass 1 of `Correctness::compute`: the green marks.  Position `i` is
`Correct` when `answer[i] = guess[i]`, otherwise it keeps the initial
`Wrong` value of the `c` array. -/
def pass1marks (answer guess : List Char) : List Correctness :=
  List.zipWith (fun a g => if a = g then Correctness.Correct else Correctness.Wrong)
    answer guess

/-- The initial consumption state for pass 2: each answer character paired
with its `used` flag, which starts `true` exactly on the positions marked
green in pass 1 (the loop in src/lib.rs lines 72-78). -/
def initUsed (answer guess : List Char) : List (Char × Bool) :=
  List.zipWith (fun a g => (a, decide (a = g))) answer guess

/-- The `find_map` scan of pass 2 (src/lib.rs lines 86-93): find the first
answer position whose character equals `g` and whose `used` flag is still
`false`; if found, flip that flag.  `none` means no unconsumed match. -/
def consume (g : Char) : List (Char × Bool) → Option (List (Char × Bool))
  | [] => none
  | (a, u) :: rest =>
      if a = g ∧ u = false then some ((a, true) :: rest)
      else (consume g rest).map (fun r => (a, u) :: r)

/-- Pass 2 of `Correctness::compute` (src/lib.rs lines 80-95): walk the guess
characters left to right together with their pass-1 marks, threading the
consumption state.  A green position is kept; otherwise the first unconsumed
matching answer position (if any) is consumed and the slot becomes
`Misplaced`; else it stays `Wrong`. -/
def pass2 : List (Char × Correctness) → List (Char × Bool) → List Correctness
  | [], _ => []
  | (g, m) :: rest, st =>
      if m = Correctness.Correct then Correctness.Correct :: pass2 rest st
      else
        match consume g st with
        | some st' => Correctness.Misplaced :: pass2 rest st'
        | none => Correctness.Wrong :: pass2 rest st

/-- The body of `Correctness::compute` after the length assertions. -/
def computeCore (answer guess : List Char) : List Correctness :=
  pass2 (guess.zip (pass1marks answer guess)) (initUsed answer guess)

/-- `Correctness::compute` (src/lib.rs lines 58-98) with its two
`assert_eq!` length preconditions: `none` models the panic on a
precondition violation. -/
def compute (answer guess : List Char) : Option (List Correctness) :=
  if answer.length = 5 ∧ guess.length = 5 then some (computeCore answer guess)
  else none

end Correctness

/-- The `Guess` record of src/lib.rs: the guessed word together with the
feedback mask it received. -/
structure Guess where
  word : List Char
  mask : List Correctness
deriving DecidableEq, Repr

namespace Wordle

/-- The observable outcome of `Wordle::play`: `Some(turn)` on a win,
`None` when 32 turns are exhausted, and a panic (the `assert!` on
dictionary membership, or the length assertions inside `compute`)
modelled as `panicked` carrying the turn on which the abort happened. -/
inductive PlayResult where
  | won : Nat → PlayResult
  | unsolved : PlayResult
  | panicked : Nat → PlayResult
deriving DecidableEq, Repr

/-- The loop of `Wordle::play` (src/lib.rs lines 28-42), by recursion on the
remaining turns (`fuel`): ask the guesser, return `won turn` on an exact
match, abort when the dictionary `assert!` or a `compute` length assertion
fails, otherwise append the scored record to the history and continue. -/
def playFrom (dict : List Char → Bool) (answer : List Char)
    (f : σ → List Guess → List Char × σ) :
    σ → List Guess → Nat → Nat → PlayResult
  | _, _, _, 0 => .unsolved
  | s, history, turn, fuel + 1 =>
      let p := f s history
      if p.1 = answer then .won turn
      else if dict p.1 = false then .panicked turn
      else
        match Correctness.compute answer p.1 with
        | none => .panicked turn
        | some mask =>
            playFrom dict answer f p.2 (history ++ [⟨p.1, mask⟩]) (turn + 1) fuel

/-- `Wordle::play` (src/lib.rs lines 23-45): start with an empty history on
turn 1 and run at most 32 turns (`for i in 1..=32`). -/
def play (dict : List Char → Bool) (answer : List Char)
    (f : σ → List Guess → List Char × σ) (s₀ : σ) : PlayResult :=
  playFrom dict answer f s₀ [] 1 32

/-- One iteration of the loop as a pure state transformer on
(guesser state, history): the guesser is consulted on the current history and
the scored record is appended.  `runSG n` below is the state the loop carries
into turn `n + 1` when no earlier turn won or aborted. -/
def runStep (answer : List Char) (f : σ → List Guess → List Char × σ)
    (p : σ × List Guess) : σ × List Guess :=
  let q := f p.1 p.2
  (q.2, p.2 ++ [⟨q.1, Correctness.computeCore answer q.1⟩])

/-- The guesser state and history at the start of turn `n + 1` of the
(uninterrupted) run of the loop. -/
def runSG (answer : List Char) (f : σ → List Guess → List Char × σ)
    (s₀ : σ) : Nat → σ × List Guess
  | 0 => (s₀, [])
  | n + 1 => runStep answer f (runSG answer f s₀ n)

/-- The word the guesser proposes on turn `n + 1` of the run. -/
def gseq (answer : List Char) (f : σ → List Guess → List Char × σ)
    (s₀ : σ) (n : Nat) : List Char :=
  (f (runSG answer f s₀ n).1 (runSG answer f s₀ n).2).1

/-- `str::split_once(' ')` as used by both constructors: split at the first
space, `none` when the line has no space. -/
def splitOnce : List Char → Option (List Char × List Char)
  | [] => none
  | c :: rest =>
      if c = ' ' then some ([], rest)
      else (splitOnce rest).map (fun p => (c :: p.1, p.2))

/-- `str::parse::<usize>` on the frequency field: an optional leading plus
sign, then a nonempty string of decimal digits whose value fits in 64 bits;
anything else is a parse error (`none`). -/
def parseNat (s : List Char) : Option Nat :=
  let digits := match s with
    | '+' :: rest => rest
    | _ => s
  if digits ≠ [] ∧ digits.all (fun c => c.isDigit) then
    let n := digits.foldl (fun acc c => acc * 10 + (c.toNat - 48)) 0
    if n < 2 ^ 64 then some n else none
  else none

/-- `Wordle::new` (src/lib.rs lines 13-21): each dictionary line is split at
the first space and only the word before the space is kept; the `expect`
panic on a line with no space is modelled as `none`.  The frequency field is
never parsed here.  The resulting list of words stands for the `HashSet`
(membership is the only operation ever used on it). -/
def new : List (List Char) → Option (List (List Char))
  | [] => some []
  | line :: rest =>
      match splitOnce line, new rest with
      | some p, some ws => some (p.1 :: ws)
      | _, _ => none

end Wordle

/-- `Naive::new` (src/algorithms/naive.rs): each line is split at the first
space and the frequency field is parsed as an integer; either `expect`
panic (no space, or non-numeric frequency) is modelled as `none`. -/
def naiveNew : List (List Char) → Option (List (List Char × Nat))
  | [] => some []
  | line :: rest =>
      match (Wordle.splitOnce line).bind
          (fun p => (Wordle.parseNat p.2).map (fun n => (p.1, n))),
        naiveNew rest with
      | some e, some es => some (e :: es)
      | _, _ => none

/-- Number of occurrences of the character `ch` in `l`. -/
def charCount (ch : Char) (l : List Char) : Nat :=
  l.countP (fun x => decide (x = ch))

/-- Number of `Correct` entries in a feedback mask. -/
def correctCount (res : List Correctness) : Nat :=
  res.countP (fun r => decide (r = Correctness.Correct))

/-- Number of positions at which the answer and the guess agree. -/
def matchCount (answer guess : List Char) : Nat :=
  (answer.zip guess).countP (fun p => decide (p.1 = p.2))

/-- Number of positions of `guess` holding the letter `ch` whose feedback is
not `Wrong` (not Absent). -/
def hitCount (ch : Char) (guess : List Char) (res : List Correctness) : Nat :=
  (guess.zip res).countP (fun p => decide (p.1 = ch) && !decide (p.2 = Correctness.Wrong))

/-- Number of positions of `guess` holding the letter `ch` whose feedback is
`Wrong` (Absent). -/
def missCount (ch : Char) (guess : List Char) (res : List Correctness) : Nat :=
  (guess.zip res).countP (fun p => decide (p.1 = ch) && decide (p.2 = Correctness.Wrong))

/-- Number of entries of a consumption state holding the letter `ch` that are
still unconsumed. -/
def availCount (ch : Char) (st : List (Char × Bool)) : Nat :=
  st.countP (fun p => decide (p.1 = ch) && !p.2)

/-- A concrete 5-letter answer used to instantiate the game lemmas. -/
def rightWord : List Char := [ 'r', 'i', 'g', 'h', 't' ]

/-- A concrete 5-letter non-answer word used to instantiate the game lemmas. -/
def wrongWord : List Char := [ 'w', 'r', 'o', 'n', 'g' ]

/-- A stateless guesser that always proposes `rightWord`. -/
def constRight : Unit → List Guess → List Char × Unit := fun s _ => (rightWord, s)

/-- A stateless guesser that always proposes `wrongWord`. -/
def constWrong : Unit → List Guess → List Char × Unit := fun s _ => (wrongWord, s)

/-- A concrete one-word dictionary containing only `wrongWord`. -/
def wrongDict : List Char → Bool := fun w => decide (w = wrongWord)

example :
    Correctness.compute [ 'a', 'b', 'c', 'd', 'e' ] [ 'a', 'b', 'c', 'd', 'e' ] =
      some [ .Correct, .Correct, .Correct, .Correct, .Correct ] := by decide

example :
    Correctness.compute [ 'a', 'z', 'z', 'a', 'z' ] [ 'a', 'a', 'a', 'b', 'b' ] =
      some [ .Correct, .Misplaced, .Wrong, .Wrong, .Wrong ] := by decide

example :
    Correctness.compute [ 'a', 'b', 'c', 'd', 'e' ] [ 'a', 'a', 'c', 'd', 'e' ] =
      some [ .Correct, .Wrong, .Correct, .Correct, .Correct ] := by decide

namespace Correctness

theorem pass2_length (gs : List (Char × Correctness)) :
    ∀ st : List (Char × Bool), (pass2 gs st).length = gs.length := by
  induction gs with
  | nil => intro st; rfl
  | cons p rest ih =>
      intro st
      obtain ⟨g, m⟩ := p
      by_cases hm : m = Correctness.Correct
      · simp [pass2, hm, ih]
      · cases hc : consume g st with
        | none => simp [pass2, hm, hc, ih]
        | some st' => simp [pass2, hm, hc, ih]

theorem computeCore_length (a g : List Char) :
    (computeCore a g).length = min g.length (min a.length g.length) := by
  simp [computeCore, pass2_length, pass1marks]

theorem computeCore_length_five (a g : List Char) (ha : a.length = 5)
    (hg : g.length = 5) : (computeCore a g).length = 5 := by
  simp [computeCore_length, ha, hg]

theorem pass2_getElem_correct (gs : List (Char × Correctness)) :
    ∀ (st : List (Char × Bool)) (i : Nat),
      (pass2 gs st)[i]? = some Correctness.Correct ↔
        ∃ g, gs[i]? = some (g, Correctness.Correct) := by
  induction gs with
  | nil => intro st i; simp [pass2]
  | cons p rest ih =>
      intro st i
      obtain ⟨g, m⟩ := p
      by_cases hm : m = Correctness.Correct
      · cases i with
        | zero => simp [pass2, hm]
        | succ j => simp [pass2, hm, ih]
      · cases hc : consume g st with
        | none =>
            cases i with
            | zero => simp [pass2, hm, hc]
            | succ j => simp [pass2, hm, hc, ih]
        | some st' =>
            cases i with
            | zero => simp [pass2, hm, hc]
            | succ j => simp [pass2, hm, hc, ih]

theorem pass2_countP_correct (gs : List (Char × Correctness)) :
    ∀ st : List (Char × Bool),
      (pass2 gs st).countP (fun r => decide (r = Correctness.Correct)) =
        gs.countP (fun p => decide (p.2 = Correctness.Correct)) := by
  induction gs with
  | nil => intro st; rfl
  | cons p rest ih =>
      intro st
      obtain ⟨g, m⟩ := p
      by_cases hm : m = Correctness.Correct
      · simp [pass2, hm, List.countP_cons, ih]
      · cases hc : consume g st with
        | none => simp [pass2, hm, hc, List.countP_cons, ih]
        | some st' => simp [pass2, hm, hc, List.countP_cons, ih]

theorem zip_marks_count : ∀ a g : List Char,
    (g.zip (pass1marks a g)).countP (fun p => decide (p.2 = Correctness.Correct)) =
      (a.zip g).countP (fun p => decide (p.1 = p.2)) := by
  intro a
  induction a with
  | nil => intro g; simp [pass1marks]
  | cons x as ih =>
      intro g
      cases g with
      | nil => simp [pass1marks]
      | cons y gs =>
          have h := ih gs
          simp only [pass1marks] at h ⊢
          by_cases hxy : x = y
          · simp [List.countP_cons, hxy, h]
          · simp [List.countP_cons, hxy, h]

theorem computeCore_countP (a g : List Char) :
    correctCount (computeCore a g) = matchCount a g := by
  unfold correctCount matchCount computeCore
  rw [pass2_countP_correct, zip_marks_count]

theorem computeCore_correct_iff : ∀ (a g : List Char) (i : Nat),
    (computeCore a g)[i]? = some Correctness.Correct ↔
      ∃ c, a[i]? = some c ∧ g[i]? = some c := by
  intro a
  induction a with
  | nil => intro g i; simp [computeCore, pass2_getElem_correct, pass1marks]
  | cons x as ih =>
      intro g i
      rw [computeCore, pass2_getElem_correct]
      cases g with
      | nil => simp [pass1marks]
      | cons y gs =>
          cases i with
          | zero =>
              by_cases hxy : x = y
              · simp [pass1marks, hxy]
              · simp [pass1marks, hxy]
                exact fun h => hxy h.symm
          | succ j =>
              have := ih gs j
              rw [computeCore, pass2_getElem_correct] at this
              simpa [pass1marks] using this

theorem compute_some (a g : List Char) (ha : a.length = 5) (hg : g.length = 5) :
    compute a g = some (computeCore a g) := by
  simp [compute, ha, hg]

theorem compute_eq_some (a g : List Char) (res : List Correctness)
    (h : compute a g = some res) :
    a.length = 5 ∧ g.length = 5 ∧ res = computeCore a g := by
  unfold compute at h
  by_cases hl : a.length = 5 ∧ g.length = 5
  · rw [if_pos hl] at h
    exact ⟨hl.1, hl.2, (Option.some.inj h).symm⟩
  · rw [if_neg hl] at h
    exact absurd h (by simp)

end Correctness

theorem countP_split {α : Type} (p q : α → Bool) (l : List α) :
    l.countP (fun x => p x && q x) + l.countP (fun x => p x && !q x) =
      l.countP p := by
  induction l with
  | nil => rfl
  | cons a l ih =>
      simp only [List.countP_cons]
      cases hp : p a <;> cases hq : q a <;> simp [hp, hq] <;> omega

theorem countP_zip_fst (q : Char → Bool) : ∀ (xs : List Char) (ys : List Correctness),
    xs.length = ys.length →
    (xs.zip ys).countP (fun p => q p.1) = xs.countP q := by
  intro xs
  induction xs with
  | nil => intro ys h; simp
  | cons x xs ih =>
      intro ys h
      cases ys with
      | nil => simp at h
      | cons y ys => simp [List.countP_cons, ih ys (by simpa using h)]

theorem mem_zip_of_mem_left : ∀ (xs : List Char) (ys : List Correctness),
    xs.length = ys.length → ∀ x, x ∈ xs → ∃ y, (x, y) ∈ xs.zip ys := by
  intro xs
  induction xs with
  | nil => intro ys h x hx; simp at hx
  | cons a xs ih =>
      intro ys h x hx
      cases ys with
      | nil => simp at h
      | cons b ys =>
          rcases List.mem_cons.mp hx with rfl | hx'
          · exact ⟨b, List.mem_cons_self _ _⟩
          · obtain ⟨y, hy⟩ := ih ys (by simpa using h) x hx'
            exact ⟨y, List.mem_cons_of_mem _ hy⟩

namespace Correctness

theorem consume_avail (g : Char) :
    ∀ st st' : List (Char × Bool), consume g st = some st' →
      ∀ ch, availCount ch st = availCount ch st' + (if g = ch then 1 else 0) := by
  intro st
  induction st with
  | nil => intro st' h ch; simp [consume] at h
  | cons p rest ih =>
      intro st' h ch
      obtain ⟨a, u⟩ := p
      by_cases hau : a = g ∧ u = false
      · obtain ⟨rfl, rfl⟩ := hau
        rw [consume, if_pos ⟨rfl, rfl⟩] at h
        obtain rfl := Option.some.inj h
        by_cases hgc : a = ch <;>
          simp [availCount, List.countP_cons, hgc]
      · rw [consume, if_neg hau] at h
        rcases Option.map_eq_some'.mp h with ⟨r, hr, hst⟩
        subst hst
        have hrec := ih r hr ch
        simp only [availCount, List.countP_cons] at hrec ⊢
        omega

theorem consume_none (g : Char) :
    ∀ st : List (Char × Bool), consume g st = none → availCount g st = 0 := by
  intro st
  induction st with
  | nil => intro h; rfl
  | cons p rest ih =>
      intro h
      obtain ⟨a, u⟩ := p
      by_cases hau : a = g ∧ u = false
      · rw [consume, if_pos hau] at h
        exact absurd h (by simp)
      · rw [consume, if_neg hau] at h
        have hr : consume g rest = none := by
          cases hc : consume g rest with
          | none => rfl
          | some r => rw [hc] at h; exact absurd h (by simp)
        have := ih hr
        simp only [availCount, List.countP_cons] at this ⊢
        have hhead : (decide (a = g) && !u) = false := by
          cases u
          · simp at hau
            simp [hau]
          · simp
        rw [hhead]
        simpa using this

theorem pass2_hit_le (ch : Char) (gs : List (Char × Correctness)) :
    ∀ st : List (Char × Bool),
      ((gs.map Prod.fst).zip (pass2 gs st)).countP
          (fun p => decide (p.1 = ch) && !decide (p.2 = Correctness.Wrong)) ≤
        gs.countP (fun p => decide (p.1 = ch) && decide (p.2 = Correctness.Correct)) +
          availCount ch st := by
  induction gs with
  | nil => intro st; simp [pass2]
  | cons p rest ih =>
      intro st
      obtain ⟨g, m⟩ := p
      by_cases hm : m = Correctness.Correct
      · subst hm
        have := ih st
        simp only [pass2, if_pos rfl, List.map_cons, List.zip_cons_cons,
          List.countP_cons]
        by_cases hg : g = ch <;> simp [hg] <;> omega
      · cases hc : consume g st with
        | none =>
            have := ih st
            simp only [pass2, if_neg hm, hc, List.map_cons, List.zip_cons_cons,
              List.countP_cons]
            simp [hm]
            omega
        | some st' =>
            have hav := consume_avail g st st' hc ch
            have := ih st'
            simp only [pass2, if_neg hm, hc, List.map_cons, List.zip_cons_cons,
              List.countP_cons]
            by_cases hg : g = ch
            · rw [if_pos hg] at hav
              simp [hm, hg]
              omega
            · rw [if_neg hg] at hav
              simp [hm, hg]
              omega

theorem pass2_hit_ge (ch : Char) (gs : List (Char × Correctness)) :
    ∀ st : List (Char × Bool),
      (∃ m, (ch, m) ∈ gs) →
      (1 ≤ availCount ch st ∨ (ch, Correctness.Correct) ∈ gs) →
      1 ≤ ((gs.map Prod.fst).zip (pass2 gs st)).countP
          (fun p => decide (p.1 = ch) && !decide (p.2 = Correctness.Wrong)) := by
  induction gs with
  | nil => intro st hmem _; simp at hmem
  | cons p rest ih =>
      intro st hmem hdis
      obtain ⟨g, m⟩ := p
      by_cases hg : g = ch
      · subst hg
        by_cases hm : m = Correctness.Correct
        · subst hm
          simp [pass2, List.countP_cons]
        · cases hc : consume g st with
          | some st' => simp [pass2, hm, hc, List.countP_cons]
          | none =>
              have h0 := consume_none g st hc
              have hronly : (g, Correctness.Correct) ∈ rest := by
                rcases hdis with h1 | h2
                · omega
                · rcases List.mem_cons.mp h2 with h3 | h4
                  · simp at h3
                    exact absurd h3.symm hm
                  · exact h4
              have := ih st ⟨Correctness.Correct, hronly⟩ (Or.inr hronly)
              simp only [pass2, if_neg hm, hc, List.map_cons, List.zip_cons_cons,
                List.countP_cons]
              omega
      · have hmem' : ∃ m', (ch, m') ∈ rest := by
          obtain ⟨m', hm'⟩ := hmem
          rcases List.mem_cons.mp hm' with h3 | h4
          · simp at h3
            exact absurd h3.1.symm hg
          · exact ⟨m', h4⟩
        have hdismem : (ch, Correctness.Correct) ∈ (g, m) :: rest →
            (ch, Correctness.Correct) ∈ rest := by
          intro h2
          rcases List.mem_cons.mp h2 with h3 | h4
          · simp at h3
            exact absurd h3.1.symm hg
          · exact h4
        by_cases hm : m = Correctness.Correct
        · subst hm
          have hdis' : 1 ≤ availCount ch st ∨ (ch, Correctness.Correct) ∈ rest := by
            rcases hdis with h1 | h2
            · exact Or.inl h1
            · exact Or.inr (hdismem h2)
          have := ih st hmem' hdis'
          simp only [pass2, ite_true, List.map_cons, List.zip_cons_cons,
            List.countP_cons]
          omega
        · cases hc : consume g st with
          | some st' =>
              have hav := consume_avail g st st' hc ch
              rw [if_neg hg] at hav
              have hdis' : 1 ≤ availCount ch st' ∨
                  (ch, Correctness.Correct) ∈ rest := by
                rcases hdis with h1 | h2
                · exact Or.inl (by omega)
                · exact Or.inr (hdismem h2)
              have := ih st' hmem' hdis'
              simp only [pass2, if_neg hm, hc, List.map_cons, List.zip_cons_cons,
                List.countP_cons]
              omega
          | none =>
              have hdis' : 1 ≤ availCount ch st ∨
                  (ch, Correctness.Correct) ∈ rest := by
                rcases hdis with h1 | h2
                · exact Or.inl h1
                · exact Or.inr (hdismem h2)
              have := ih st hmem' hdis'
              simp only [pass2, if_neg hm, hc, List.map_cons, List.zip_cons_cons,
                List.countP_cons]
              omega

theorem marks_avail_split (ch : Char) : ∀ a g : List Char, a.length = g.length →
    (g.zip (pass1marks a g)).countP
        (fun p => decide (p.1 = ch) && decide (p.2 = Correctness.Correct)) +
      availCount ch (initUsed a g) = charCount ch a := by
  intro a
  induction a with
  | nil =>
      intro g h
      cases g with
      | nil => rfl
      | cons y gs => simp at h
  | cons x as ih =>
      intro g h
      cases g with
      | nil => simp at h
      | cons y gs =>
          have h' : as.length = gs.length := by simpa using h
          have hrec := ih gs h'
          simp only [pass1marks, initUsed, availCount, charCount,
            List.zipWith_cons_cons, List.zip_cons_cons, List.countP_cons] at hrec ⊢
          by_cases hxy : x = y
          · subst hxy
            by_cases hxc : x = ch
            · simp only [hxc] at hrec ⊢
              simp
              omega
            · simp [hxc]
              omega
          · by_cases hxc : x = ch
            · by_cases hyc : y = ch
              · exact absurd (hxc.trans hyc.symm) hxy
              · have hcy : ¬ch = y := fun hh => hyc hh.symm
                simp [hxy, hxc, hyc, hcy]
                omega
            · by_cases hyc : y = ch
              · simp [hxy, hxc, hyc]
                omega
              · simp [hxy, hxc, hyc]
                omega

end Correctness

/-- C3: the scorer's left-to-right first-unconsumed-match tie-break yields the
spec's concrete results on the full permutation and the two duplicate-letter
examples (`Wrong` is the code's name for the spec's Absent). -/
theorem c3_concrete_masks :
    Correctness.compute [ 'a', 'b', 'c', 'd', 'e' ] [ 'c', 'd', 'b', 'e', 'a' ] =
        some [ .Misplaced, .Misplaced, .Misplaced, .Misplaced, .Misplaced ] ∧
    Correctness.compute [ 'a', 'a', 'b', 'b', 'b' ] [ 'a', 'a', 'c', 'c', 'c' ] =
        some [ .Correct, .Correct, .Wrong, .Wrong, .Wrong ] ∧
    Correctness.compute [ 'a', 'a', 'b', 'b', 'b' ] [ 'c', 'c', 'a', 'a', 'c' ] =
        some [ .Wrong, .Wrong, .Misplaced, .Misplaced, .Wrong ] := by
  decide

/-- C6: under the length-5 precondition on both strings, `compute` succeeds
(it is a total, deterministic function there, returning a 5-entry mask); on
any input violating the precondition it hits a length assertion (modelled as
`none`) instead of returning a result. -/
theorem c6_compute_total_or_assert (answer guess : List Char) :
    (answer.length = 5 → guess.length = 5 →
      ∃ res, Correctness.compute answer guess = some res ∧ res.length = 5) ∧
    (¬(answer.length = 5 ∧ guess.length = 5) →
      Correctness.compute answer guess = none) := by
  constructor
  · intro ha hg
    exact ⟨Correctness.computeCore answer guess, Correctness.compute_some _ _ ha hg,
      Correctness.computeCore_length_five _ _ ha hg⟩
  · intro hl
    simp [Correctness.compute, hl]

theorem c6_witness :
    ∃ res,
      Correctness.compute [ 'a', 'b', 'c', 'd', 'e' ] [ 'c', 'd', 'b', 'e', 'a' ] =
        some res ∧ res.length = 5 :=
  (c6_compute_total_or_assert [ 'a', 'b', 'c', 'd', 'e' ]
    [ 'c', 'd', 'b', 'e', 'a' ]).1 (by decide) (by decide)

/-- C7: a successful `compute` returns exactly 5 feedback values, and the
number of `Correct` entries never exceeds the number of positions where the
answer and the guess hold the same character. -/
theorem c7_length_and_correct_bound (answer guess : List Char)
    (res : List Correctness)
    (h : Correctness.compute answer guess = some res) :
    res.length = 5 ∧ correctCount res ≤ matchCount answer guess := by
  obtain ⟨ha, hg, hres⟩ := Correctness.compute_eq_some _ _ _ h
  subst hres
  exact ⟨Correctness.computeCore_length_five _ _ ha hg,
    le_of_eq (Correctness.computeCore_countP _ _)⟩

theorem c7_witness :
    [ Correctness.Correct, Correctness.Correct, Correctness.Wrong,
        Correctness.Wrong, Correctness.Wrong ].length = 5 ∧
      correctCount [ Correctness.Correct, Correctness.Correct, Correctness.Wrong,
        Correctness.Wrong, Correctness.Wrong ] ≤
        matchCount [ 'a', 'a', 'b', 'b', 'b' ] [ 'a', 'a', 'c', 'c', 'c' ] :=
  c7_length_and_correct_bound [ 'a', 'a', 'b', 'b', 'b' ]
    [ 'a', 'a', 'c', 'c', 'c' ] _ (by decide)

/-- C1: for a scored (answer, guess) pair and any letter `c`, the number of
guess positions holding `c` whose feedback is not `Wrong` (Absent) never
exceeds the number of occurrences of `c` in the answer; in particular, when
the guess holds `c` exactly twice and the answer exactly once, exactly one
of the two guess positions is marked Correct/Misplaced and exactly one is
marked Absent. -/
theorem c1_repeated_letter_bound (answer guess : List Char)
    (res : List Correctness) (c : Char)
    (h : Correctness.compute answer guess = some res) :
    hitCount c guess res ≤ charCount c answer ∧
    (charCount c guess = 2 → charCount c answer = 1 →
      hitCount c guess res = 1 ∧ missCount c guess res = 1) := by
  obtain ⟨ha, hg, hres⟩ := Correctness.compute_eq_some _ _ _ h
  subst hres
  have hlm : guess.length = (Correctness.pass1marks answer guess).length := by
    simp [Correctness.pass1marks, ha, hg]
  have hmap : (guess.zip (Correctness.pass1marks answer guess)).map Prod.fst =
      guess :=
    List.map_fst_zip _ _ (le_of_eq hlm)
  have hle := Correctness.pass2_hit_le c
    (guess.zip (Correctness.pass1marks answer guess))
    (Correctness.initUsed answer guess)
  rw [hmap] at hle
  have hsplit := Correctness.marks_avail_split c answer guess (by omega)
  have hupper : hitCount c guess (Correctness.computeCore answer guess) ≤
      charCount c answer := by
    unfold hitCount Correctness.computeCore
    omega
  refine ⟨hupper, fun hg2 ha1 => ?_⟩
  have hcg : c ∈ guess := by
    have hpos : 0 < guess.countP (fun x => decide (x = c)) := by
      unfold charCount at hg2
      omega
    obtain ⟨x, hx, hpx⟩ := List.countP_pos_iff.mp hpos
    have hxc : x = c := of_decide_eq_true hpx
    rwa [hxc] at hx
  obtain ⟨m, hmzip⟩ :=
    mem_zip_of_mem_left guess (Correctness.pass1marks answer guess) hlm c hcg
  have hdis : 1 ≤ availCount c (Correctness.initUsed answer guess) ∨
      (c, Correctness.Correct) ∈
        guess.zip (Correctness.pass1marks answer guess) := by
    by_cases hav : 1 ≤ availCount c (Correctness.initUsed answer guess)
    · exact Or.inl hav
    · right
      have hc1 : 0 < (guess.zip (Correctness.pass1marks answer guess)).countP
          (fun p => decide (p.1 = c) && decide (p.2 = Correctness.Correct)) := by
        omega
      obtain ⟨p, hp, hpp⟩ := List.countP_pos_iff.mp hc1
      obtain ⟨p1, p2⟩ := p
      simp only [Bool.and_eq_true, decide_eq_true_eq] at hpp
      obtain ⟨e1, e2⟩ := hpp
      subst e1
      subst e2
      exact hp
  have hge := Correctness.pass2_hit_ge c
    (guess.zip (Correctness.pass1marks answer guess))
    (Correctness.initUsed answer guess) ⟨m, hmzip⟩ hdis
  rw [hmap] at hge
  have hhit : hitCount c guess (Correctness.computeCore answer guess) = 1 := by
    unfold hitCount Correctness.computeCore at hupper ⊢
    omega
  have hlen2 : guess.length = (Correctness.computeCore answer guess).length := by
    rw [Correctness.computeCore_length_five answer guess ha hg, hg]
  have hmiss : missCount c guess (Correctness.computeCore answer guess) = 1 := by
    have htot := countP_zip_fst (fun x => decide (x = c)) guess
      (Correctness.computeCore answer guess) hlen2
    have hsp := countP_split (fun p : Char × Correctness => decide (p.1 = c))
      (fun p : Char × Correctness => decide (p.2 = Correctness.Wrong))
      (guess.zip (Correctness.computeCore answer guess))
    simp only [] at htot hsp
    unfold hitCount at hhit
    unfold charCount at hg2
    unfold missCount
    omega
  exact ⟨hhit, hmiss⟩

theorem c1_witness :
    hitCount 'a' [ 'a', 'a', 'x', 'y', 'z' ]
        [ Correctness.Correct, Correctness.Wrong, Correctness.Wrong,
          Correctness.Wrong, Correctness.Wrong ] ≤
      charCount 'a' [ 'a', 'b', 'c', 'd', 'e' ] ∧
    (charCount 'a' [ 'a', 'a', 'x', 'y', 'z' ] = 2 →
      charCount 'a' [ 'a', 'b', 'c', 'd', 'e' ] = 1 →
      hitCount 'a' [ 'a', 'a', 'x', 'y', 'z' ]
          [ Correctness.Correct, Correctness.Wrong, Correctness.Wrong,
            Correctness.Wrong, Correctness.Wrong ] = 1 ∧
      missCount 'a' [ 'a', 'a', 'x', 'y', 'z' ]
          [ Correctness.Correct, Correctness.Wrong, Correctness.Wrong,
            Correctness.Wrong, Correctness.Wrong ] = 1) :=
  c1_repeated_letter_bound [ 'a', 'b', 'c', 'd', 'e' ]
    [ 'a', 'a', 'x', 'y', 'z' ] _ 'a' (by decide)

/-- C10: a successful `compute` marks position `i` as `Correct` exactly when
the answer and the guess agree at position `i` (pass 2 neither erases nor
creates green marks), so the `Correct` count equals the number of matching
positions. -/
theorem c10_correct_positions (answer guess : List Char)
    (res : List Correctness)
    (h : Correctness.compute answer guess = some res) :
    (∀ i, i < 5 →
      ((res[i]? = some Correctness.Correct) ↔ answer[i]? = guess[i]?)) ∧
    correctCount res = matchCount answer guess := by
  obtain ⟨ha, hg, hres⟩ := Correctness.compute_eq_some _ _ _ h
  subst hres
  refine ⟨fun i hi => ?_, Correctness.computeCore_countP _ _⟩
  rw [Correctness.computeCore_correct_iff]
  have h1 : i < answer.length := by omega
  have h2 : i < guess.length := by omega
  rw [List.getElem?_eq_getElem h1, List.getElem?_eq_getElem h2]
  constructor
  · rintro ⟨c, hc1, hc2⟩
    rw [hc1, hc2]
  · intro he
    exact ⟨answer[i], rfl, he.symm⟩

theorem c10_witness :
    (∀ i, i < 5 →
      (([ Correctness.Correct, Correctness.Wrong, Correctness.Correct,
          Correctness.Correct, Correctness.Correct ][i]? =
            some Correctness.Correct) ↔
        [ 'a', 'b', 'c', 'd', 'e' ][i]? = [ 'a', 'a', 'c', 'd', 'e' ][i]?)) ∧
    correctCount [ Correctness.Correct, Correctness.Wrong, Correctness.Correct,
        Correctness.Correct, Correctness.Correct ] =
      matchCount [ 'a', 'b', 'c', 'd', 'e' ] [ 'a', 'a', 'c', 'd', 'e' ] :=
  c10_correct_positions [ 'a', 'b', 'c', 'd', 'e' ] [ 'a', 'a', 'c', 'd', 'e' ]
    _ (by decide)

namespace Wordle

theorem runSG_succ (answer : List Char) {σ : Type}
    (f : σ → List Guess → List Char × σ) (s₀ : σ) (n : Nat) :
    runSG answer f s₀ (n + 1) =
      ((f (runSG answer f s₀ n).1 (runSG answer f s₀ n).2).2,
        (runSG answer f s₀ n).2 ++
          [⟨gseq answer f s₀ n,
            Correctness.computeCore answer (gseq answer f s₀ n)⟩]) := rfl

theorem runSG_length (answer : List Char) {σ : Type}
    (f : σ → List Guess → List Char × σ) (s₀ : σ) :
    ∀ n, (runSG answer f s₀ n).2.length = n := by
  intro n
  induction n with
  | zero => rfl
  | succ k ih =>
      rw [runSG_succ]
      simp [ih]

theorem runSG_getElem (answer : List Char) {σ : Type}
    (f : σ → List Guess → List Char × σ) (s₀ : σ) :
    ∀ n m, m < n →
      ((runSG answer f s₀ n).2)[m]? =
        some ⟨gseq answer f s₀ m,
          Correctness.computeCore answer (gseq answer f s₀ m)⟩ := by
  intro n
  induction n with
  | zero => intro m hm; exact absurd hm (by omega)
  | succ k ih =>
      intro m hm
      simp only [runSG_succ]
      rw [List.getElem?_append]
      by_cases hmk : m < k
      · rw [if_pos (by rw [runSG_length]; omega)]
        exact ih m hmk
      · have hmek : m = k := by omega
        subst hmek
        rw [if_neg (by rw [runSG_length]; omega)]
        rw [runSG_length]
        simp

theorem playFrom_step (dict : List Char → Bool) (answer : List Char) {σ : Type}
    (f : σ → List Guess → List Char × σ) (s : σ) (history : List Guess)
    (turn fuel : Nat)
    (hne : (f s history).1 ≠ answer)
    (hd : dict (f s history).1 = true)
    (hlen : (f s history).1.length = 5)
    (hans : answer.length = 5) :
    playFrom dict answer f s history turn (fuel + 1) =
      playFrom dict answer f (f s history).2
        (history ++ [⟨(f s history).1,
          Correctness.computeCore answer (f s history).1⟩]) (turn + 1) fuel := by
  have hcomp := Correctness.compute_some answer (f s history).1 hans hlen
  simp only [playFrom]
  rw [if_neg hne, if_neg (by simp [hd]), hcomp]

theorem play_reach (dict : List Char → Bool) (answer : List Char) {σ : Type}
    (f : σ → List Guess → List Char × σ) (s₀ : σ)
    (hans : answer.length = 5)
    (hdl : ∀ w, dict w = true → w.length = 5) :
    ∀ n, n ≤ 32 →
      (∀ m, m < n →
        gseq answer f s₀ m ≠ answer ∧ dict (gseq answer f s₀ m) = true) →
      play dict answer f s₀ =
        playFrom dict answer f (runSG answer f s₀ n).1 (runSG answer f s₀ n).2
          (n + 1) (32 - n) := by
  intro n
  induction n with
  | zero => intro _ _; rfl
  | succ k ih =>
      intro hn hrun
      have hk : k ≤ 32 := by omega
      have hrunk : ∀ m, m < k →
          gseq answer f s₀ m ≠ answer ∧ dict (gseq answer f s₀ m) = true :=
        fun m hm => hrun m (by omega)
      obtain ⟨hne, hd⟩ := hrun k (by omega)
      have hne' : (f (runSG answer f s₀ k).1 (runSG answer f s₀ k).2).1 ≠ answer := hne
      have hd' : dict (f (runSG answer f s₀ k).1 (runSG answer f s₀ k).2).1 = true := hd
      have hlen' : (f (runSG answer f s₀ k).1 (runSG answer f s₀ k).2).1.length = 5 :=
        hdl _ hd
      have hfuel : 32 - k = (32 - (k + 1)) + 1 := by omega
      rw [ih hk hrunk, hfuel,
        playFrom_step dict answer f _ _ _ _ hne' hd' hlen' hans, runSG_succ]
      rfl

theorem play_won_of (dict : List Char → Bool) (answer : List Char) {σ : Type}
    (f : σ → List Guess → List Char × σ) (s₀ : σ)
    (hans : answer.length = 5)
    (hdl : ∀ w, dict w = true → w.length = 5)
    (k : Nat) (hk1 : 1 ≤ k) (hk2 : k ≤ 32)
    (hwin : gseq answer f s₀ (k - 1) = answer)
    (hbefore : ∀ m, m < k - 1 →
      gseq answer f s₀ m ≠ answer ∧ dict (gseq answer f s₀ m) = true) :
    play dict answer f s₀ = .won k := by
  rw [play_reach dict answer f s₀ hans hdl (k - 1) (by omega) hbefore]
  have hfuel : 32 - (k - 1) = (32 - k) + 1 := by omega
  rw [hfuel]
  have hwin' : (f (runSG answer f s₀ (k - 1)).1 (runSG answer f s₀ (k - 1)).2).1 =
      answer := hwin
  simp only [playFrom]
  rw [if_pos hwin']
  have hke : k - 1 + 1 = k := by omega
  rw [hke]

theorem play_panicked_of (dict : List Char → Bool) (answer : List Char) {σ : Type}
    (f : σ → List Guess → List Char × σ) (s₀ : σ)
    (hans : answer.length = 5)
    (hdl : ∀ w, dict w = true → w.length = 5)
    (t : Nat) (ht1 : 1 ≤ t) (ht2 : t ≤ 32)
    (hbefore : ∀ m, m < t - 1 →
      gseq answer f s₀ m ≠ answer ∧ dict (gseq answer f s₀ m) = true)
    (hne : gseq answer f s₀ (t - 1) ≠ answer)
    (hnd : dict (gseq answer f s₀ (t - 1)) = false) :
    play dict answer f s₀ = .panicked t := by
  rw [play_reach dict answer f s₀ hans hdl (t - 1) (by omega) hbefore]
  have hfuel : 32 - (t - 1) = (32 - t) + 1 := by omega
  rw [hfuel]
  have hne' : (f (runSG answer f s₀ (t - 1)).1 (runSG answer f s₀ (t - 1)).2).1 ≠
      answer := hne
  have hnd' : dict (f (runSG answer f s₀ (t - 1)).1 (runSG answer f s₀ (t - 1)).2).1 =
      false := hnd
  simp only [playFrom]
  rw [if_neg hne', if_pos hnd']
  have hte : t - 1 + 1 = t := by omega
  rw [hte]

theorem play_unsolved_of (dict : List Char → Bool) (answer : List Char) {σ : Type}
    (f : σ → List Guess → List Char × σ) (s₀ : σ)
    (hans : answer.length = 5)
    (hdl : ∀ w, dict w = true → w.length = 5)
    (hall : ∀ m, m < 32 →
      gseq answer f s₀ m ≠ answer ∧ dict (gseq answer f s₀ m) = true) :
    play dict answer f s₀ = .unsolved := by
  rw [play_reach dict answer f s₀ hans hdl 32 (le_refl 32) hall]
  rfl

theorem play_won_or_unsolved (dict : List Char → Bool) (answer : List Char)
    {σ : Type} (f : σ → List Guess → List Char × σ) (s₀ : σ)
    (hans : answer.length = 5)
    (hdl : ∀ w, dict w = true → w.length = 5)
    (hval : ∀ m, gseq answer f s₀ m ≠ answer → dict (gseq answer f s₀ m) = true) :
    (∃ k, play dict answer f s₀ = .won k) ∨
      play dict answer f s₀ = .unsolved := by
  by_cases hex : ∃ m, m < 32 ∧ gseq answer f s₀ m = answer
  · have hex' : ∃ m, gseq answer f s₀ m = answer := by
      obtain ⟨m, _, hm⟩ := hex
      exact ⟨m, hm⟩
    have hk₀win : gseq answer f s₀ (Nat.find hex') = answer := Nat.find_spec hex'
    have hk₀min : ∀ m, m < Nat.find hex' → gseq answer f s₀ m ≠ answer :=
      fun m hm => Nat.find_min hex' hm
    have hk₀lt : Nat.find hex' < 32 := by
      obtain ⟨m, hm, hwin⟩ := hex
      have := Nat.find_min' hex' hwin
      omega
    left
    refine ⟨Nat.find hex' + 1,
      play_won_of dict answer f s₀ hans hdl (Nat.find hex' + 1) (by omega)
        (by omega) ?_ ?_⟩
    · rw [Nat.add_sub_cancel]
      exact hk₀win
    · rw [Nat.add_sub_cancel]
      exact fun m hm => ⟨hk₀min m hm, hval m (hk₀min m hm)⟩
  · push_neg at hex
    right
    exact play_unsolved_of dict answer f s₀ hans hdl
      (fun m hm => ⟨hex m hm, hval m (hex m hm)⟩)

end Wordle

/-- C2: for a 5-letter answer and any guesser whose non-winning guesses are
all (5-letter) dictionary members, `play` returns `won k` exactly when turn
`k` (with 1 ≤ k ≤ 32) is the first turn whose guess equals the answer, and
returns `unsolved` — the normal no-result outcome, not a panic — exactly
when no guess of turns 1..32 equals the answer. -/
theorem c2_play_first_win (dict : List Char → Bool) (answer : List Char)
    {σ : Type} (f : σ → List Guess → List Char × σ) (s₀ : σ)
    (hans : answer.length = 5)
    (hdl : ∀ w, dict w = true → w.length = 5)
    (hval : ∀ m, Wordle.gseq answer f s₀ m ≠ answer →
      dict (Wordle.gseq answer f s₀ m) = true) :
    (∀ k, Wordle.play dict answer f s₀ = .won k ↔
      (1 ≤ k ∧ k ≤ 32 ∧ Wordle.gseq answer f s₀ (k - 1) = answer ∧
        ∀ m, m < k - 1 → Wordle.gseq answer f s₀ m ≠ answer)) ∧
    (Wordle.play dict answer f s₀ = .unsolved ↔
      ∀ m, m < 32 → Wordle.gseq answer f s₀ m ≠ answer) := by
  by_cases hex : ∃ m, m < 32 ∧ Wordle.gseq answer f s₀ m = answer
  · have hex' : ∃ m, Wordle.gseq answer f s₀ m = answer := by
      obtain ⟨m, _, hm⟩ := hex
      exact ⟨m, hm⟩
    have hk₀win : Wordle.gseq answer f s₀ (Nat.find hex') = answer :=
      Nat.find_spec hex'
    have hk₀min : ∀ m, m < Nat.find hex' → Wordle.gseq answer f s₀ m ≠ answer :=
      fun m hm => Nat.find_min hex' hm
    have hk₀lt : Nat.find hex' < 32 := by
      obtain ⟨m, hm, hwin⟩ := hex
      have := Nat.find_min' hex' hwin
      omega
    have hwon : Wordle.play dict answer f s₀ = .won (Nat.find hex' + 1) := by
      refine Wordle.play_won_of dict answer f s₀ hans hdl (Nat.find hex' + 1)
        (by omega) (by omega) ?_ ?_
      · rw [Nat.add_sub_cancel]
        exact hk₀win
      · rw [Nat.add_sub_cancel]
        exact fun m hm => ⟨hk₀min m hm, hval m (hk₀min m hm)⟩
    constructor
    · intro k
      constructor
      · intro hpk
        rw [hwon] at hpk
        have hke : Nat.find hex' + 1 = k := by
          injection hpk
        subst hke
        refine ⟨by omega, by omega, ?_, ?_⟩
        · rw [Nat.add_sub_cancel]
          exact hk₀win
        · rw [Nat.add_sub_cancel]
          exact hk₀min
      · rintro ⟨hk1, hk2, hwin, hmin⟩
        have h1 : Nat.find hex' ≤ k - 1 := Nat.find_min' hex' hwin
        have h2 : ¬Nat.find hex' < k - 1 := fun hlt => hmin _ hlt hk₀win
        have hke : Nat.find hex' + 1 = k := by omega
        rw [hwon, hke]
    · constructor
      · intro hpu
        rw [hwon] at hpu
        exact absurd hpu (by simp)
      · intro hall
        exact absurd hk₀win (hall (Nat.find hex') hk₀lt)
  · push_neg at hex
    have huns : Wordle.play dict answer f s₀ = .unsolved :=
      Wordle.play_unsolved_of dict answer f s₀ hans hdl
        (fun m hm => ⟨hex m hm, hval m (hex m hm)⟩)
    constructor
    · intro k
      constructor
      · intro hpk
        rw [huns] at hpk
        exact absurd hpk (by simp)
      · rintro ⟨hk1, hk2, hwin, _⟩
        exact absurd hwin (hex (k - 1) (by omega))
    · exact ⟨fun _ => hex, fun _ => huns⟩

theorem c2_witness :
    Wordle.play (fun _ => false) rightWord constRight () =
      Wordle.PlayResult.won 1 :=
  ((c2_play_first_win (fun _ => false) rightWord constRight ()
      (by decide) (fun w hw => by simp at hw)
      (fun m hm => absurd rfl hm)).1 1).mpr
    ⟨le_refl 1, by omega, rfl, fun m hm => absurd hm (by omega)⟩

/-- C4: if, on a turn before any winning turn, the strategy proposes a word
that is neither the answer nor a dictionary member, `play` aborts with
`panicked` on that very turn (the guess is neither scored nor recorded: the
abort outcome is returned immediately); and no such abort can happen while
every non-winning guess is a (5-letter) dictionary member. -/
theorem c4_out_of_dictionary_abort (dict : List Char → Bool) (answer : List Char)
    {σ : Type} (f : σ → List Guess → List Char × σ) (s₀ : σ)
    (hans : answer.length = 5)
    (hdl : ∀ w, dict w = true → w.length = 5) :
    (∀ t, 1 ≤ t → t ≤ 32 →
      (∀ m, m < t - 1 → Wordle.gseq answer f s₀ m ≠ answer ∧
        dict (Wordle.gseq answer f s₀ m) = true) →
      Wordle.gseq answer f s₀ (t - 1) ≠ answer →
      dict (Wordle.gseq answer f s₀ (t - 1)) = false →
      Wordle.play dict answer f s₀ = .panicked t) ∧
    ((∀ m, Wordle.gseq answer f s₀ m ≠ answer →
        dict (Wordle.gseq answer f s₀ m) = true) →
      ∀ t, Wordle.play dict answer f s₀ ≠ .panicked t) := by
  constructor
  · intro t ht1 ht2 hbefore hne hnd
    exact Wordle.play_panicked_of dict answer f s₀ hans hdl t ht1 ht2
      hbefore hne hnd
  · intro hval t
    rcases Wordle.play_won_or_unsolved dict answer f s₀ hans hdl hval with
      ⟨k, hk⟩ | hu
    · rw [hk]
      simp
    · rw [hu]
      simp

theorem c4_witness :
    Wordle.play (fun _ => false) rightWord constWrong () =
      Wordle.PlayResult.panicked 1 :=
  (c4_out_of_dictionary_abort (fun _ => false) rightWord constWrong ()
      (by decide) (fun w hw => by simp at hw)).1
    1 (le_refl 1) (by omega) (fun m hm => absurd hm (by omega)) (by decide) rfl

/-- C5: the answer-equality check precedes the dictionary `assert!`: if the
guess on turn `t` equals the answer, `play` returns `won t` even when the
answer is not a dictionary member (`dict answer = false`), so the winning
guess is never subjected to the dictionary-membership assertion. -/
theorem c5_win_before_dictionary (dict : List Char → Bool) (answer : List Char)
    {σ : Type} (f : σ → List Guess → List Char × σ) (s₀ : σ)
    (hans : answer.length = 5)
    (hdl : ∀ w, dict w = true → w.length = 5)
    (t : Nat) (ht1 : 1 ≤ t) (ht2 : t ≤ 32)
    (hbefore : ∀ m, m < t - 1 → Wordle.gseq answer f s₀ m ≠ answer ∧
      dict (Wordle.gseq answer f s₀ m) = true)
    (hwin : Wordle.gseq answer f s₀ (t - 1) = answer)
    (_hnd : dict answer = false) :
    Wordle.play dict answer f s₀ = .won t :=
  Wordle.play_won_of dict answer f s₀ hans hdl t ht1 ht2 hwin hbefore

theorem c5_witness :
    Wordle.play (fun _ => false) rightWord constRight () =
      Wordle.PlayResult.won 1 ∧ (fun _ => false) rightWord = false :=
  ⟨c5_win_before_dictionary (fun _ => false) rightWord constRight ()
      (by decide) (fun w hw => by simp at hw) 1 (le_refl 1) (by omega)
      (fun m hm => absurd hm (by omega)) rfl rfl, rfl⟩

/-- C9: while no earlier turn has won or aborted, the game state entering
turn `n + 1` is exactly `runSG n`: its history holds exactly `n` records,
record `m` being the turn-`m + 1` guess paired with its computed mask (which
equals the value of `compute`, since those guesses are 5-letter dictionary
words), the history grows by appending exactly one record per turn, and
`play` continues from precisely this state — so the strategy on turn `n + 1`
is passed exactly these `n` records and a winning guess is never appended. -/
theorem c9_history_invariant (dict : List Char → Bool) (answer : List Char)
    {σ : Type} (f : σ → List Guess → List Char × σ) (s₀ : σ)
    (hans : answer.length = 5)
    (hdl : ∀ w, dict w = true → w.length = 5)
    (n : Nat) (hn : n ≤ 32)
    (hrun : ∀ m, m < n → Wordle.gseq answer f s₀ m ≠ answer ∧
      dict (Wordle.gseq answer f s₀ m) = true) :
    Wordle.play dict answer f s₀ =
      Wordle.playFrom dict answer f (Wordle.runSG answer f s₀ n).1
        (Wordle.runSG answer f s₀ n).2 (n + 1) (32 - n) ∧
    (Wordle.runSG answer f s₀ n).2.length = n ∧
    (∀ m, m < n → ((Wordle.runSG answer f s₀ n).2)[m]? =
      some ⟨Wordle.gseq answer f s₀ m,
        Correctness.computeCore answer (Wordle.gseq answer f s₀ m)⟩) ∧
    (∀ m, m < n → Correctness.compute answer (Wordle.gseq answer f s₀ m) =
      some (Correctness.computeCore answer (Wordle.gseq answer f s₀ m))) ∧
    (Wordle.runSG answer f s₀ (n + 1)).2 =
      (Wordle.runSG answer f s₀ n).2 ++
        [⟨Wordle.gseq answer f s₀ n,
          Correctness.computeCore answer (Wordle.gseq answer f s₀ n)⟩] := by
  refine ⟨Wordle.play_reach dict answer f s₀ hans hdl n hn hrun,
    Wordle.runSG_length answer f s₀ n,
    Wordle.runSG_getElem answer f s₀ n, ?_, ?_⟩
  · intro m hm
    exact Correctness.compute_some answer (Wordle.gseq answer f s₀ m) hans
      (hdl _ (hrun m hm).2)
  · rw [Wordle.runSG_succ]

theorem c9_witness :
    Wordle.play wrongDict rightWord constWrong () =
      Wordle.playFrom wrongDict rightWord constWrong
        (Wordle.runSG rightWord constWrong () 1).1
        (Wordle.runSG rightWord constWrong () 1).2 2 31 ∧
    (Wordle.runSG rightWord constWrong () 1).2.length = 1 ∧
    (∀ m, m < 1 → ((Wordle.runSG rightWord constWrong () 1).2)[m]? =
      some ⟨Wordle.gseq rightWord constWrong () m,
        Correctness.computeCore rightWord
          (Wordle.gseq rightWord constWrong () m)⟩) ∧
    (∀ m, m < 1 →
      Correctness.compute rightWord (Wordle.gseq rightWord constWrong () m) =
        some (Correctness.computeCore rightWord
          (Wordle.gseq rightWord constWrong () m))) ∧
    (Wordle.runSG rightWord constWrong () 2).2 =
      (Wordle.runSG rightWord constWrong () 1).2 ++
        [⟨Wordle.gseq rightWord constWrong () 1,
          Correctness.computeCore rightWord
            (Wordle.gseq rightWord constWrong () 1)⟩] :=
  c9_history_invariant wrongDict rightWord constWrong () (by decide)
    (fun w hw => by
      have hw' : w = wrongWord := of_decide_eq_true hw
      subst hw'
      decide)
    1 (by omega) (fun m _ =>
      ⟨(by decide : wrongWord ≠ rightWord),
        (by decide : wrongDict wrongWord = true)⟩)

theorem new_none_of_bad : ∀ ls : List (List Char),
    (∃ l ∈ ls, Wordle.splitOnce l = none) → Wordle.new ls = none := by
  intro ls
  induction ls with
  | nil => intro h; simp at h
  | cons line rest ih =>
      intro h
      rcases h with ⟨l, hl, hnone⟩
      rcases List.mem_cons.mp hl with rfl | hmem
      · simp [Wordle.new, hnone]
      · have hrest := ih ⟨l, hmem, hnone⟩
        cases hs : Wordle.splitOnce line <;> simp [Wordle.new, hs, hrest]

theorem new_some_mem : ∀ ls : List (List Char),
    (∀ l ∈ ls, (Wordle.splitOnce l).isSome) →
    ∃ ws, Wordle.new ls = some ws ∧
      ∀ w, w ∈ ws ↔ ∃ l ∈ ls, ∃ rest, Wordle.splitOnce l = some (w, rest) := by
  intro ls
  induction ls with
  | nil =>
      intro _
      exact ⟨[], rfl, by simp⟩
  | cons line rest ih =>
      intro h
      obtain ⟨ws, hws, hm⟩ := ih (fun l hl => h l (List.mem_cons_of_mem _ hl))
      have hhead := h line (List.mem_cons_self _ _)
      cases hs : Wordle.splitOnce line with
      | none => rw [hs] at hhead; simp at hhead
      | some p =>
          refine ⟨p.1 :: ws, by simp [Wordle.new, hs, hws], ?_⟩
          intro w
          simp only [List.mem_cons]
          constructor
          · rintro (rfl | hw)
            · exact ⟨line, Or.inl rfl, p.2, by rw [hs]⟩
            · obtain ⟨l, hl, rest', hr⟩ := (hm w).mp hw
              exact ⟨l, Or.inr hl, rest', hr⟩
          · rintro ⟨l, hl, rest', hr⟩
            rcases hl with rfl | hl'
            · left
              rw [hs] at hr
              have hpe := Option.some.inj hr
              exact (congrArg Prod.fst hpe).symm
            · right
              exact (hm w).mpr ⟨l, hl', rest', hr⟩

theorem naiveNew_none_of_badfreq : ∀ ls : List (List Char),
    (∃ l ∈ ls, ∃ w rest, Wordle.splitOnce l = some (w, rest) ∧
      Wordle.parseNat rest = none) →
    naiveNew ls = none := by
  intro ls
  induction ls with
  | nil => intro h; simp at h
  | cons line rest ih =>
      intro h
      rcases h with ⟨l, hl, w, r, hs, hp⟩
      rcases List.mem_cons.mp hl with rfl | hmem
      · cases hr : naiveNew rest <;> simp [naiveNew, hs, hp, hr]
      · have hrest := ih ⟨l, hmem, w, r, hs, hp⟩
        cases he : (Wordle.splitOnce line).bind
            (fun p => (Wordle.parseNat p.2).map (fun n => (p.1, n))) <;>
          simp [naiveNew, he, hrest]

/-- C8 counterexample: a dictionary line whose frequency field is non-numeric
is not a fatal failure of simulator construction — `Wordle::new` succeeds on
the line `hello abc` (whose frequency field `abc` fails to parse) and keeps
the word, refuting the claim that such a line is fatal at load time. -/
theorem c8_counterexample :
    Wordle.parseNat [ 'a', 'b', 'c' ] = none ∧
    Wordle.splitOnce [ 'h', 'e', 'l', 'l', 'o', ' ', 'a', 'b', 'c' ] =
      some ([ 'h', 'e', 'l', 'l', 'o' ], [ 'a', 'b', 'c' ]) ∧
    Wordle.new [ [ 'h', 'e', 'l', 'l', 'o', ' ', 'a', 'b', 'c' ] ] =
      some [ [ 'h', 'e', 'l', 'l', 'o' ] ] := by
  decide

/-- C8 (amended): `Wordle::new` treats a line with no space separator as a
fatal load-time failure, and loads well-formed lines once into the word set
(a word is a member exactly when some line starts with it followed by a
space); a line whose frequency field is non-numeric is NOT detected there —
`Wordle::new` never parses the frequency — that failure belongs to the
`Naive` strategy constructor, which is fatal on a non-numeric frequency. -/
theorem c8_dictionary_loading (ls : List (List Char)) :
    ((∃ l ∈ ls, Wordle.splitOnce l = none) → Wordle.new ls = none) ∧
    ((∀ l ∈ ls, (Wordle.splitOnce l).isSome) →
      ∃ ws, Wordle.new ls = some ws ∧
        ∀ w, w ∈ ws ↔ ∃ l ∈ ls, ∃ rest, Wordle.splitOnce l = some (w, rest)) ∧
    ((∃ l ∈ ls, ∃ w rest, Wordle.splitOnce l = some (w, rest) ∧
        Wordle.parseNat rest = none) →
      naiveNew ls = none) :=
  ⟨new_none_of_bad ls, new_some_mem ls, naiveNew_none_of_badfreq ls⟩

theorem c8_witness :
    Wordle.new [ [ 'h', 'i' ] ] = none ∧
    naiveNew [ [ 'h', 'i', ' ', 'a' ] ] = none :=
  ⟨(c8_dictionary_loading [ [ 'h', 'i' ] ]).1
      ⟨[ 'h', 'i' ], by simp, by decide⟩,
    (c8_dictionary_loading [ [ 'h', 'i', ' ', 'a' ] ]).2.2
      ⟨[ 'h', 'i', ' ', 'a' ], by simp, [ 'h', 'i' ], [ 'a' ],
        by decide, by decide⟩⟩
